import Mathlib

/-!
Verification of the character-level adjective generator in
src/model-training/train.py.

The encoding and dataset-building pipeline is modelled over ℚ (the only
arithmetic it performs is exact: one-hot entries and the position scalar
i / SEQ_LEN).  The generation loop and the temperature reweighting use
floating-point log / exp; those are modelled over ℝ.  Randomness
(np.random.choice) is modelled by inverse-CDF sampling driven by an
explicit stream of uniform draws, and np.random.shuffle in build_dataset
is a permutation of the pair list, so all order-insensitive claims are
stated on the pre-shuffle list.
-/

/-- The 26 lowercase letters, source constant CHARS. -/
def CHARS : List Char := "abcdefghijklmnopqrstuvwxyz".toList

/-- Source constant START_TOKEN = "^". -/
def START_TOKEN : Char := '^'

/-- Source constant END_TOKEN = "$". -/
def END_TOKEN : Char := '$'

/-- Source constant VOCAB = [START_TOKEN] + CHARS + [END_TOKEN]. -/
def VOCAB : List Char := START_TOKEN :: CHARS ++ [END_TOKEN]

/-- Source dict CHAR_TO_IDX: maps a character to its index in VOCAB.
A lookup of a character outside VOCAB raises KeyError in Python; that is
modelled as none. -/
def CHAR_TO_IDX (c : Char) : Option ℕ :=
  if c ∈ VOCAB then some (VOCAB.indexOf c) else none

/-- Source dict IDX_TO_CHAR: maps an index to the character of VOCAB at
that index (all uses keep the index below VOCAB.length). -/
def IDX_TO_CHAR (i : ℕ) : Char := VOCAB.getD i '?'

/-- Source constant VOCAB_SIZE = len(VOCAB) = 28. -/
def VOCAB_SIZE : ℕ := VOCAB.length

/-- Source constant MAX_WORD_LEN = 9. -/
def MAX_WORD_LEN : ℕ := 9

/-- Source constant SEQ_LEN = MAX_WORD_LEN + 1 = 10. -/
def SEQ_LEN : ℕ := MAX_WORD_LEN + 1

/-- The comprehension [CHAR_TO_IDX[c] for c in word] in encode_word:
fails (KeyError) as soon as one character is outside VOCAB. -/
def mapIdx : List Char → Option (List ℕ)
  | [] => some []
  | c :: cs => do
    let i ← CHAR_TO_IDX c
    let rest ← mapIdx cs
    return i :: rest

/-- Source encode_word: truncate the word to MAX_WORD_LEN characters and
wrap its character indices with the start and end indices. -/
def encode_word (word : List Char) : Option (List ℕ) := do
  let s ← CHAR_TO_IDX START_TOKEN
  let mid ← mapIdx (word.take MAX_WORD_LEN)
  let e ← CHAR_TO_IDX END_TOKEN
  return s :: (mid ++ [e])

/-- The training input vector built in build_dataset: zeros(VOCAB_SIZE+1)
with entry chIdx set to 1.0 and the last entry (index 28) then set to
i / SEQ_LEN; the later write wins, hence the index-28 test comes first. -/
def featureVec (chIdx i : ℕ) : Fin 29 → ℚ :=
  fun j => if (j : ℕ) = VOCAB_SIZE then (i : ℚ) / SEQ_LEN
           else if (j : ℕ) = chIdx then 1 else 0

/-- Source build_dataset, up to the final np.random.shuffle (a
permutation of this list; every claim checked below is invariant under
that permutation).  For each word: lower it, encode it, and emit one
(feature, target) pair per adjacent index pair of the encoded sequence.
The none branch corresponds to the Python KeyError on a word with a
character outside VOCAB. -/
def build_dataset (adjectives : List (List Char)) : List ((Fin 29 → ℚ) × ℕ) :=
  adjectives.flatMap fun word =>
    match encode_word (word.map Char.toLower) with
    | none => []
    | some encoded =>
      (List.range (encoded.length - 1)).map fun i =>
        (featureVec (encoded.getD i 0) i, encoded.getD (i + 1) 0)

/-- The data-preparation stage of source train(): loads the word list,
builds the dataset and computes the 90/10 split index int(0.9*len(X)).
The code contains no emptiness check and raises nothing before handing
the arrays to model.fit, so this stage always returns some
(word count, pair count, split index); none would model a fail-fast
diagnostic, which the code does not contain. -/
def trainPrep (ws : List (List Char)) : Option (ℕ × ℕ × ℕ) :=
  let pairs := build_dataset ws
  some (ws.length, pairs.length, 9 * pairs.length / 10)

/-! ## Generation (source generate_word), modelled over ℝ -/

/-- The start index as an element of Fin VOCAB_SIZE. -/
def START_IDX : Fin 28 := ⟨VOCAB.indexOf START_TOKEN, by decide⟩

/-- The end index as an element of Fin VOCAB_SIZE. -/
def END_IDX : Fin 28 := ⟨VOCAB.indexOf END_TOKEN, by decide⟩

/-- The inference input vector built inside the generation loop: zeros of
size VOCAB_SIZE + 1, entry char_idx set to 1.0, then the last entry set
to pos / SEQ_LEN. -/
noncomputable def featureVecGen (charIdx : Fin 28) (pos : ℕ) : Fin 29 → ℝ :=
  fun j => if (j : ℕ) = VOCAB_SIZE then (pos : ℝ) / SEQ_LEN
           else if (j : ℕ) = (charIdx : ℕ) then 1 else 0

/-- The temperature reweighting of generate_word:
log(probs + 1e-10) / temperature, exponentiated and renormalized. -/
noncomputable def tempAdjust (p : Fin 28 → ℝ) (T : ℝ) : Fin 28 → ℝ :=
  fun i => Real.exp (Real.log (p i + 1 / 10 ^ 10) / T) /
    ∑ j : Fin 28, Real.exp (Real.log (p j + 1 / 10 ^ 10) / T)

/-- Cumulative sum of a probability vector up to index i, used to model
inverse-CDF sampling. -/
noncomputable def cumsum (p : Fin 28 → ℝ) (i : Fin 28) : ℝ :=
  ∑ j : Fin 28, if j ≤ i then p j else 0

open Classical in
/-- Model of np.random.choice(len(probs), p=probs) for one uniform draw
u ∈ [0,1): the least index whose cumulative probability exceeds u (the
fallback for a degenerate draw or vector is the last index). -/
noncomputable def npChoice (p : Fin 28 → ℝ) (u : ℝ) : Fin 28 :=
  if h : (Finset.univ.filter fun i => u < cumsum p i).Nonempty
  then (Finset.univ.filter fun i => u < cumsum p i).min' h
  else ⟨27, by decide⟩

open Classical in
/-- The probability vector the loop samples from at position pos with
current character charIdx: the model output, temperature-adjusted
whenever temperature ≠ 1.0. -/
noncomputable def adjProbs (M : (Fin 29 → ℝ) → Fin 28 → ℝ) (temp : ℝ)
    (charIdx : Fin 28) (pos : ℕ) : Fin 28 → ℝ :=
  let probs := M (featureVecGen charIdx pos)
  if temp = 1 then probs else tempAdjust probs temp

/-- The sequence of sampled indices: the loop always assigns the sampled
index to char_idx before testing it, so sample pos is drawn from the
distribution conditioned on sample (pos - 1) (start index before the
first iteration). -/
noncomputable def sampledSeq (M : (Fin 29 → ℝ) → Fin 28 → ℝ) (temp : ℝ)
    (u : ℕ → ℝ) : ℕ → Fin 28
  | 0 => npChoice (adjProbs M temp START_IDX 0) (u 0)
  | n + 1 => npChoice (adjProbs M temp (sampledSeq M temp u n) (n + 1)) (u (n + 1))

/-- The generation loop body of generate_word: at each position sample an
index; break on the end index, skip on the start index, append the
letter otherwise.  fuel counts the remaining iterations of
for pos in range(MAX_WORD_LEN). -/
noncomputable def genGo (M : (Fin 29 → ℝ) → Fin 28 → ℝ) (temp : ℝ)
    (u : ℕ → ℝ) : ℕ → ℕ → Fin 28 → List Char
  | _, 0, _ => []
  | pos, fuel + 1, charIdx =>
    let c := npChoice (adjProbs M temp charIdx pos) (u pos)
    if c = END_IDX then []
    else if c = START_IDX then genGo M temp u (pos + 1) fuel c
    else IDX_TO_CHAR (c : ℕ) :: genGo M temp u (pos + 1) fuel c

/-- Source generate_word: run the loop for MAX_WORD_LEN iterations from
the start index and join the accumulated letters. -/
noncomputable def generate_word (M : (Fin 29 → ℝ) → Fin 28 → ℝ)
    (temp : ℝ) (u : ℕ → ℝ) : String :=
  String.mk (genGo M temp u 0 MAX_WORD_LEN START_IDX)

/-- Number of iterations in [pos, pos + fuel) whose sampled index is the
start index. -/
noncomputable def countStart (M : (Fin 29 → ℝ) → Fin 28 → ℝ) (temp : ℝ)
    (u : ℕ → ℝ) : ℕ → ℕ → ℕ
  | _, 0 => 0
  | pos, fuel + 1 =>
    (if sampledSeq M temp u pos = START_IDX then 1 else 0) +
      countStart M temp u (pos + 1) fuel

/-- A model that puts probability 1 on symbol t whatever the input. -/
def pointMassModel (t : Fin 28) : (Fin 29 → ℝ) → Fin 28 → ℝ :=
  fun _ j => if j = t then 1 else 0

/-! ## Helper lemmas: vocabulary and encoding -/

lemma char_to_idx_vocab (c : Char) (h : c ∈ VOCAB) :
    CHAR_TO_IDX c = some (VOCAB.indexOf c) := by
  unfold CHAR_TO_IDX
  rw [if_pos h]

lemma mem_vocab_of_mem_chars : ∀ c ∈ CHARS, c ∈ VOCAB := by decide

lemma indexOf_mem_chars :
    ∀ c ∈ CHARS, 1 ≤ VOCAB.indexOf c ∧ VOCAB.indexOf c ≤ 26 := by decide

lemma toLower_mem_chars : ∀ c ∈ CHARS, Char.toLower c = c := by decide

lemma map_toLower_eq (w : List Char) (h : ∀ c ∈ w, c ∈ CHARS) :
    w.map Char.toLower = w := by
  rw [List.map_congr_left fun a ha => toLower_mem_chars a (h a ha), List.map_id']

lemma mapIdx_eq (l : List Char) (h : ∀ c ∈ l, c ∈ CHARS) :
    mapIdx l = some (l.map fun c => VOCAB.indexOf c) := by
  induction l with
  | nil => rfl
  | cons c cs ih =>
    simp [mapIdx, char_to_idx_vocab c (mem_vocab_of_mem_chars c (h c (List.mem_cons_self c cs))),
      ih fun x hx => h x (List.mem_cons_of_mem c hx)]

lemma encode_eq (w : List Char) (h : ∀ c ∈ w, c ∈ CHARS) :
    encode_word w = some (VOCAB.indexOf START_TOKEN ::
      (((w.take MAX_WORD_LEN).map fun c => VOCAB.indexOf c) ++
        [VOCAB.indexOf END_TOKEN])) := by
  have ht : ∀ c ∈ w.take MAX_WORD_LEN, c ∈ CHARS :=
    fun c hc => h c (List.mem_of_mem_take hc)
  simp [encode_word, char_to_idx_vocab START_TOKEN (by decide),
    char_to_idx_vocab END_TOKEN (by decide), mapIdx_eq _ ht]

lemma mem_build_dataset_iff (ws : List (List Char)) (pr : (Fin 29 → ℚ) × ℕ) :
    pr ∈ build_dataset ws ↔ ∃ w ∈ ws, ∃ enc,
      encode_word (w.map Char.toLower) = some enc ∧
      ∃ i, i + 1 < enc.length ∧
        pr = (featureVec (enc.getD i 0) i, enc.getD (i + 1) 0) := by
  unfold build_dataset
  rw [List.mem_flatMap]
  constructor
  · rintro ⟨w, hw, hpr⟩
    refine ⟨w, hw, ?_⟩
    cases henc : encode_word (w.map Char.toLower) with
    | none => rw [henc] at hpr; simp at hpr
    | some enc =>
      rw [henc] at hpr
      simp only [List.mem_map, List.mem_range] at hpr
      obtain ⟨i, hi, rfl⟩ := hpr
      exact ⟨enc, rfl, i, by omega, rfl⟩
  · rintro ⟨w, hw, enc, henc, i, hi, rfl⟩
    refine ⟨w, hw, ?_⟩
    rw [henc]
    simp only [List.mem_map, List.mem_range]
    exact ⟨i, by omega, rfl⟩

lemma build_blue_eq : build_dataset ["blue".toList] =
    [(featureVec 0 0, 2), (featureVec 2 1, 12), (featureVec 12 2, 21),
     (featureVec 21 3, 5), (featureVec 5 4, 27)] := rfl

lemma encoded_elem_le (w : List Char) (h : ∀ c ∈ w, c ∈ CHARS) :
    ∀ x ∈ (VOCAB.indexOf START_TOKEN ::
      (((w.take MAX_WORD_LEN).map fun c => VOCAB.indexOf c) ++
        [VOCAB.indexOf END_TOKEN])), x ≤ 27 := by
  intro x hx
  rcases List.mem_cons.mp hx with rfl | hx
  · decide
  · rcases List.mem_append.mp hx with hx | hx
    · obtain ⟨c, hc, rfl⟩ := List.mem_map.mp hx
      exact le_trans (indexOf_mem_chars c (h c (List.mem_of_mem_take hc))).2 (by omega)
    · rw [List.mem_singleton.mp hx]; decide

/-- C3: for every lowercase alphabetic word, encode_word succeeds (no
KeyError), the result starts with the start index and ends with the end
index, its length is min(len(word), MAX_WORD_LEN) + 2, and the letters
kept are exactly the first MAX_WORD_LEN letters of the word. -/
theorem C3_encode_total (w : List Char) (h : ∀ c ∈ w, c ∈ CHARS) :
    ∃ e, encode_word w = some e ∧
      e.head? = some (VOCAB.indexOf START_TOKEN) ∧
      e.getLast? = some (VOCAB.indexOf END_TOKEN) ∧
      e.length = min w.length MAX_WORD_LEN + 2 ∧
      e = VOCAB.indexOf START_TOKEN ::
        (((w.take MAX_WORD_LEN).map fun c => VOCAB.indexOf c) ++
          [VOCAB.indexOf END_TOKEN]) := by
  refine ⟨_, encode_eq w h, rfl, ?_, ?_, rfl⟩
  · rw [← List.cons_append, List.getLast?_concat]
  · simp [MAX_WORD_LEN]
    omega

/-- Closed instance of C3_encode_total at the word "blue". -/
theorem C3_encode_total_witness :
    ∃ e, encode_word "blue".toList = some e ∧
      e.head? = some (VOCAB.indexOf START_TOKEN) ∧
      e.getLast? = some (VOCAB.indexOf END_TOKEN) ∧
      e.length = min "blue".toList.length MAX_WORD_LEN + 2 ∧
      e = VOCAB.indexOf START_TOKEN ::
        ((("blue".toList.take MAX_WORD_LEN).map fun c => VOCAB.indexOf c) ++
          [VOCAB.indexOf END_TOKEN]) :=
  C3_encode_total "blue".toList (by decide)

/-- C2: membership in the dataset is exactly: some word of the input
list, some adjacent index pair (i, i+1) of its encoded sequence, feature
one-hot at the symbol at i with appended scalar i / SEQ_LEN, target the
symbol at i+1 (so no pair crosses word boundaries); and the single-word
input ["blue"] yields exactly the 5 pairs start→b, b→l, l→u, u→e,
e→end. -/
theorem C2_buildPairs :
    (∀ (ws : List (List Char)) (pr : (Fin 29 → ℚ) × ℕ),
      pr ∈ build_dataset ws ↔ ∃ w ∈ ws, ∃ enc,
        encode_word (w.map Char.toLower) = some enc ∧
        ∃ i, i + 1 < enc.length ∧
          pr = (featureVec (enc.getD i 0) i, enc.getD (i + 1) 0)) ∧
    build_dataset ["blue".toList] =
      [(featureVec 0 0, 2), (featureVec 2 1, 12), (featureVec 12 2, 21),
       (featureVec 21 3, 5), (featureVec 5 4, 27)] :=
  ⟨mem_build_dataset_iff, build_blue_eq⟩

/-- Closed instance of C2_buildPairs: the pair start→b is in the dataset
built from ["blue"]. -/
theorem C2_buildPairs_witness :
    (featureVec 0 0, 2) ∈ build_dataset ["blue".toList] :=
  (C2_buildPairs.1 ["blue".toList] (featureVec 0 0, 2)).mpr
    ⟨"blue".toList, by simp, [0, 2, 12, 21, 5, 27], by decide, 0, by decide, rfl⟩

/-- C4 (code behavior at the failing input): with an empty word list the
data-preparation stage of train() raises nothing and proceeds: it
computes 0 words, an empty dataset of 0 pairs and split index 0, with no
emptiness check or diagnostic anywhere before model.fit. -/
theorem C4_trainPrep_empty :
    trainPrep [] = some (0, 0, 0) ∧ build_dataset [] = [] := ⟨rfl, rfl⟩

/-- C8: no pair built from lowercase alphabetic words has the start
index as its target. -/
theorem C8_no_start_target (ws : List (List Char))
    (h : ∀ w ∈ ws, ∀ c ∈ w, c ∈ CHARS) :
    ∀ pr ∈ build_dataset ws, pr.2 ≠ VOCAB.indexOf START_TOKEN := by
  intro pr hpr
  obtain ⟨w, hw, enc, henc, i, hi, rfl⟩ := (mem_build_dataset_iff ws pr).mp hpr
  have hlc : ∀ c ∈ w, c ∈ CHARS := h w hw
  rw [map_toLower_eq w hlc, encode_eq w hlc] at henc
  have henc' := (Option.some.inj henc).symm
  subst henc'
  simp only
  rw [List.getD_eq_getElem _ _ hi, List.getElem_cons_succ]
  have hmem := List.getElem_mem (l := ((w.take MAX_WORD_LEN).map fun c =>
    VOCAB.indexOf c) ++ [VOCAB.indexOf END_TOKEN]) (n := i)
    (by simpa [Nat.succ_lt_succ_iff] using hi)
  rcases List.mem_append.mp hmem with hm | hm
  · obtain ⟨c, hc, hval⟩ := List.mem_map.mp hm
    have hb := indexOf_mem_chars c (hlc c (List.mem_of_mem_take hc))
    rw [← hval]
    have h0 : VOCAB.indexOf START_TOKEN = 0 := by decide
    omega
  · rw [List.mem_singleton.mp hm]
    decide

/-- Closed instance of C8_no_start_target at ["blue"] and the first
pair. -/
theorem C8_no_start_target_witness :
    ((featureVec 0 0, 2) : (Fin 29 → ℚ) × ℕ).2 ≠ VOCAB.indexOf START_TOKEN :=
  C8_no_start_target ["blue".toList] (by decide) (featureVec 0 0, 2)
    (build_blue_eq ▸ List.mem_cons_self _ _)

lemma getD_le_27 (l : List ℕ) (hl : ∀ x ∈ l, x ≤ 27) (i : ℕ) :
    l.getD i 0 ≤ 27 := by
  rcases Nat.lt_or_ge i l.length with hlt | hge
  · rw [List.getD_eq_getElem _ _ hlt]
    exact hl _ (List.getElem_mem hlt)
  · rw [List.getD_eq_default _ _ hge]
    omega

lemma featureVec_last (chIdx i : ℕ) : featureVec chIdx i 28 = (i : ℚ) / 10 := by
  have h1 : ((28 : Fin 29) : ℕ) = VOCAB_SIZE := by decide
  have h2 : ((SEQ_LEN : ℕ) : ℚ) = 10 := by norm_num [SEQ_LEN, MAX_WORD_LEN]
  simp [featureVec, h1, h2]

lemma featureVec_hot (chIdx i : ℕ) (j : Fin 29) (hj : (j : ℕ) ≠ 28) :
    featureVec chIdx i j = if (j : ℕ) = chIdx then 1 else 0 := by
  have hVS : VOCAB_SIZE = 28 := by decide
  simp only [featureVec, hVS]
  rw [if_neg hj]

/-- C10: every feature vector built from lowercase alphabetic words is
one-hot on its first VOCAB_SIZE coordinates (exactly one entry 1, the
rest 0), and its final coordinate lies in [0, 9/10], strictly below
1. -/
theorem C10_feature_shape (ws : List (List Char))
    (h : ∀ w ∈ ws, ∀ c ∈ w, c ∈ CHARS) :
    ∀ pr ∈ build_dataset ws,
      (∃ k : Fin 29, (k : ℕ) < VOCAB_SIZE ∧ pr.1 k = 1 ∧
        ∀ j : Fin 29, (j : ℕ) < VOCAB_SIZE → j ≠ k → pr.1 j = 0) ∧
      0 ≤ pr.1 28 ∧ pr.1 28 ≤ 9 / 10 ∧ pr.1 28 < 1 := by
  intro pr hpr
  obtain ⟨w, hw, enc, henc, i, hi, rfl⟩ := (mem_build_dataset_iff ws pr).mp hpr
  have hlc : ∀ c ∈ w, c ∈ CHARS := h w hw
  rw [map_toLower_eq w hlc, encode_eq w hlc] at henc
  have hE : enc = _ := (Option.some.inj henc).symm
  have hVS : VOCAB_SIZE = 28 := by decide
  have hch : enc.getD i 0 ≤ 27 := by
    rw [hE]
    exact getD_le_27 _ (encoded_elem_le w hlc) i
  have hi9 : i ≤ 9 := by
    have hlen : enc.length ≤ 11 := by
      rw [hE]
      simp [MAX_WORD_LEN]
    omega
  have hi9Q : (i : ℚ) ≤ 9 := by exact_mod_cast hi9
  dsimp only
  refine ⟨⟨⟨enc.getD i 0, by omega⟩, ?_, ?_, ?_⟩, ?_, ?_, ?_⟩
  · show enc.getD i 0 < 28
    omega
  · rw [featureVec_hot]
    · rw [if_pos rfl]
    · show enc.getD i 0 ≠ 28
      omega
  · intro j hj hjk
    rw [hVS] at hj
    rw [featureVec_hot]
    · rw [if_neg]
      intro hcontra
      exact hjk (Fin.ext (by simpa using hcontra))
    · omega
  · rw [featureVec_last]
    positivity
  · rw [featureVec_last]
    linarith
  · rw [featureVec_last]
    linarith

/-- Closed instance of C10_feature_shape at ["blue"] and the first
pair. -/
theorem C10_feature_shape_witness :
    (∃ k : Fin 29, (k : ℕ) < VOCAB_SIZE ∧
      ((featureVec 0 0, 2) : (Fin 29 → ℚ) × ℕ).1 k = 1 ∧
      ∀ j : Fin 29, (j : ℕ) < VOCAB_SIZE → j ≠ k →
        ((featureVec 0 0, 2) : (Fin 29 → ℚ) × ℕ).1 j = 0) ∧
    0 ≤ ((featureVec 0 0, 2) : (Fin 29 → ℚ) × ℕ).1 28 ∧
    ((featureVec 0 0, 2) : (Fin 29 → ℚ) × ℕ).1 28 ≤ 9 / 10 ∧
    ((featureVec 0 0, 2) : (Fin 29 → ℚ) × ℕ).1 28 < 1 :=
  C10_feature_shape ["blue".toList] (by decide) (featureVec 0 0, 2)
    (build_blue_eq ▸ List.mem_cons_self _ _)

/-! ## Generation: length and character-set bounds -/

lemma idx_to_char_letter :
    ∀ c : Fin 28, c ≠ START_IDX → c ≠ END_IDX →
      'a' ≤ IDX_TO_CHAR (c : ℕ) ∧ IDX_TO_CHAR (c : ℕ) ≤ 'z' ∧
      IDX_TO_CHAR (c : ℕ) ≠ START_TOKEN ∧ IDX_TO_CHAR (c : ℕ) ≠ END_TOKEN := by
  decide

lemma genGo_length (M : (Fin 29 → ℝ) → Fin 28 → ℝ) (temp : ℝ) (u : ℕ → ℝ) :
    ∀ fuel pos charIdx, (genGo M temp u pos fuel charIdx).length ≤ fuel := by
  intro fuel
  induction fuel with
  | zero =>
    intro pos charIdx
    simp [genGo]
  | succ n ih =>
    intro pos charIdx
    rw [genGo]
    split_ifs
    · simp
    · exact le_trans (ih _ _) (by omega)
    · simpa using Nat.succ_le_succ (ih _ _)

lemma genGo_chars (M : (Fin 29 → ℝ) → Fin 28 → ℝ) (temp : ℝ) (u : ℕ → ℝ) :
    ∀ fuel pos charIdx, ∀ a ∈ genGo M temp u pos fuel charIdx,
      'a' ≤ a ∧ a ≤ 'z' ∧ a ≠ START_TOKEN ∧ a ≠ END_TOKEN := by
  intro fuel
  induction fuel with
  | zero =>
    intro pos ch a ha
    simp [genGo] at ha
  | succ n ih =>
    intro pos ch a ha
    rw [genGo] at ha
    split_ifs at ha with h1 h2
    · simp at ha
    · exact ih _ _ a ha
    · rcases List.mem_cons.mp ha with rfl | ha
      · exact idx_to_char_letter _ h2 h1
      · exact ih _ _ a ha

/-- C1: for every temperature, model scoring function and stream of
uniform draws, generate_word returns at most MAX_WORD_LEN characters,
all of them lowercase letters (never the start or end marker); the loop
is bounded by MAX_WORD_LEN iterations by construction (genGo recurses on
the remaining iteration count and stops at the end symbol). -/
theorem C1_generate_bounds (M : (Fin 29 → ℝ) → Fin 28 → ℝ) (temp : ℝ)
    (u : ℕ → ℝ) :
    (generate_word M temp u).length ≤ MAX_WORD_LEN ∧
    ∀ a ∈ (generate_word M temp u).toList,
      'a' ≤ a ∧ a ≤ 'z' ∧ a ≠ START_TOKEN ∧ a ≠ END_TOKEN :=
  ⟨genGo_length M temp u MAX_WORD_LEN 0 START_IDX,
   fun a ha => genGo_chars M temp u MAX_WORD_LEN 0 START_IDX a ha⟩

/-! ## Temperature reweighting -/

/-- C5: the temperature-adjusted probability vector sums to 1 for every
temperature > 0 and every vector with non-negative entries. -/
theorem C5_tempAdjust_sum (p : Fin 28 → ℝ) (T : ℝ) (hT : 0 < T)
    (hp : ∀ i, 0 ≤ p i) : ∑ i : Fin 28, tempAdjust p T i = 1 := by
  unfold tempAdjust
  rw [← Finset.sum_div]
  exact div_self (ne_of_gt (Finset.sum_pos (fun j _ => Real.exp_pos _)
    Finset.univ_nonempty))

/-- Closed instance of C5_tempAdjust_sum at the uniform vector and
temperature 2. -/
theorem C5_tempAdjust_sum_witness :
    ∑ i : Fin 28, tempAdjust (fun _ => 1 / 28) 2 i = 1 :=
  C5_tempAdjust_sum (fun _ => 1 / 28) 2 (by norm_num) (fun _ => by norm_num)

/-- C6: temperature reweighting preserves strict ranking of the entries
of a non-negative vector for every temperature > 0. -/
theorem C6_tempAdjust_ranking (p : Fin 28 → ℝ) (T : ℝ) (i j : Fin 28)
    (hT : 0 < T) (hj : 0 ≤ p j) (hij : p j < p i) :
    tempAdjust p T j < tempAdjust p T i := by
  unfold tempAdjust
  have hε : (0 : ℝ) < 1 / 10 ^ 10 := by norm_num
  have hS : 0 < ∑ k : Fin 28, Real.exp (Real.log (p k + 1 / 10 ^ 10) / T) :=
    Finset.sum_pos (fun k _ => Real.exp_pos _) Finset.univ_nonempty
  apply div_lt_div_of_pos_right _ hS
  apply Real.exp_lt_exp.mpr
  apply div_lt_div_of_pos_right _ hT
  exact Real.log_lt_log (by linarith) (by linarith)

/-- Closed instance of C6_tempAdjust_ranking: for a vector with entry 1
at index 0 and 0 elsewhere, at temperature 2 the adjusted entry at 1 is
below the adjusted entry at 0. -/
theorem C6_tempAdjust_ranking_witness :
    tempAdjust (fun k => if k = 0 then 1 else 0) 2 1 <
      tempAdjust (fun k => if k = 0 then 1 else 0) 2 0 :=
  C6_tempAdjust_ranking (fun k => if k = 0 then 1 else 0) 2 0 1
    (by norm_num) (by norm_num) (by norm_num)

/-! ## Sampling from a point-mass distribution -/

lemma cumsum_pointMass (t i : Fin 28) :
    cumsum (fun j => if j = t then (1 : ℝ) else 0) i = if t ≤ i then 1 else 0 := by
  unfold cumsum
  rw [Finset.sum_eq_single t (fun b _ hb => by simp [hb]) (by simp)]
  simp

lemma npChoice_pointMass (t : Fin 28) (u : ℝ) (h0 : 0 ≤ u) (h1 : u < 1) :
    npChoice (fun j => if j = t then (1 : ℝ) else 0) u = t := by
  unfold npChoice
  have ht : t ∈ Finset.univ.filter
      fun i => u < cumsum (fun j => if j = t then (1 : ℝ) else 0) i := by
    rw [Finset.mem_filter]
    exact ⟨Finset.mem_univ t, by rw [cumsum_pointMass, if_pos le_rfl]; exact h1⟩
  rw [dif_pos ⟨t, ht⟩]
  refine le_antisymm (Finset.min'_le _ t ht) (Finset.le_min' _ _ t ?_)
  intro y hy
  have hcy := (Finset.mem_filter.mp hy).2
  by_contra hty
  rw [cumsum_pointMass, if_neg fun hc => hty hc] at hcy
  linarith

lemma adjProbs_pointMass (t ch : Fin 28) (pos : ℕ) :
    adjProbs (pointMassModel t) 1 ch pos = fun j => if j = t then (1 : ℝ) else 0 := by
  unfold adjProbs pointMassModel
  simp

lemma sampled_pointMass (t : Fin 28) (u : ℕ → ℝ)
    (hu : ∀ n, 0 ≤ u n ∧ u n < 1) :
    ∀ n, sampledSeq (pointMassModel t) 1 u n = t := by
  intro n
  induction n with
  | zero =>
    rw [sampledSeq, adjProbs_pointMass]
    exact npChoice_pointMass t (u 0) (hu 0).1 (hu 0).2
  | succ m ih =>
    rw [sampledSeq, adjProbs_pointMass]
    exact npChoice_pointMass t (u (m + 1)) (hu (m + 1)).1 (hu (m + 1)).2

/-- C9: a model that always assigns probability 1 to the end symbol makes
generate_word at temperature 1.0 return the empty string, for every
stream of uniform draws in [0, 1). -/
theorem C9_end_model (u : ℕ → ℝ) (hu : ∀ n, 0 ≤ u n ∧ u n < 1) :
    generate_word (pointMassModel END_IDX) 1 u = "" := by
  show String.mk (genGo (pointMassModel END_IDX) 1 u 0 (8 + 1) START_IDX) = ""
  rw [genGo, adjProbs_pointMass,
    npChoice_pointMass END_IDX (u 0) (hu 0).1 (hu 0).2]
  simp

/-- Closed instance of C9_end_model with the all-zero draw stream. -/
theorem C9_end_model_witness :
    generate_word (pointMassModel END_IDX) 1 (fun _ => 0) = "" :=
  C9_end_model (fun _ => 0) (fun _ => ⟨le_refl 0, by norm_num⟩)

/-! ## The skip-on-start branch (C7) -/

lemma genGo_count (M : (Fin 29 → ℝ) → Fin 28 → ℝ) (temp : ℝ) (u : ℕ → ℝ) :
    ∀ fuel pos ch,
      npChoice (adjProbs M temp ch pos) (u pos) = sampledSeq M temp u pos →
      (∀ i, pos ≤ i → i < pos + fuel → sampledSeq M temp u i ≠ END_IDX) →
      (genGo M temp u pos fuel ch).length + countStart M temp u pos fuel = fuel := by
  intro fuel
  induction fuel with
  | zero =>
    intro pos ch _ _
    simp [genGo, countStart]
  | succ n ih =>
    intro pos ch hch hne
    rw [genGo, countStart, hch]
    have hn0 : sampledSeq M temp u pos ≠ END_IDX := hne pos le_rfl (by omega)
    rw [if_neg hn0]
    have hnext := ih (pos + 1) (sampledSeq M temp u pos) rfl
      fun i h1 h2 => hne i (by omega) (by omega)
    by_cases hs : sampledSeq M temp u pos = START_IDX
    · rw [if_pos hs, if_pos hs]
      omega
    · rw [if_neg hs, if_neg hs]
      simp only [List.length_cons]
      omega

/-- C7: a start-symbol sample is neither appended nor stops the loop but
still consumes an iteration: if the first MAX_WORD_LEN samples never hit
the end symbol and exactly k of them are the start symbol, the generated
word has exactly MAX_WORD_LEN - k letters. -/
theorem C7_skip_start (M : (Fin 29 → ℝ) → Fin 28 → ℝ) (temp : ℝ)
    (u : ℕ → ℝ) (k : ℕ)
    (hne : ∀ i < MAX_WORD_LEN, sampledSeq M temp u i ≠ END_IDX)
    (hk : countStart M temp u 0 MAX_WORD_LEN = k) :
    (generate_word M temp u).length = MAX_WORD_LEN - k := by
  have h := genGo_count M temp u MAX_WORD_LEN 0 START_IDX rfl
    fun i _ h2 => hne i (by simpa using h2)
  have hlen : (generate_word M temp u).length
      = (genGo M temp u 0 MAX_WORD_LEN START_IDX).length := rfl
  omega

lemma countStart_pointMass_one :
    ∀ fuel pos, countStart (pointMassModel 1) 1 (fun _ => (0 : ℝ)) pos fuel = 0 := by
  intro fuel
  induction fuel with
  | zero => intro pos; rfl
  | succ n ih =>
    intro pos
    rw [countStart, sampled_pointMass 1 _ (fun _ => ⟨le_refl 0, by norm_num⟩) pos,
      if_neg (by decide), ih]

/-- Closed instance of C7_skip_start: a model that always emits the
letter at index 1 never samples start or end, so the word has all
MAX_WORD_LEN letters. -/
theorem C7_skip_start_witness :
    (generate_word (pointMassModel 1) 1 (fun _ => 0)).length = MAX_WORD_LEN - 0 :=
  C7_skip_start (pointMassModel 1) 1 (fun _ => 0) 0
    (fun i _ => by
      rw [sampled_pointMass 1 _ (fun _ => ⟨le_refl 0, by norm_num⟩) i]
      decide)
    (countStart_pointMass_one MAX_WORD_LEN 0)
